import Mathlib

/-!
# Verification of the Konane repository

A shallow embedding of the Konane (Hawaiian checkers) rules engine and its
game-tree search, translated from `konane.py` (the canonical variant; the
near-duplicate rewrites `linh2.py` / `linh3.py` are embedded separately where
they differ in a way that matters to a claim, and the initial board fill of
`board.py` agrees with `konane.py` for even sizes).

Conventions of the embedding:
* a board is a list of rows of characters, exactly as the Python code uses a
  list of lists holding 'X', 'O' and '.';
* coordinates are integers (Python move entries are arbitrary ints);
* `GameError` becomes `Option`: `none` is a raised error, `some b` success;
* Python's `int(x / y)` on ints truncates toward zero, which is `Int.tdiv`;
  the quantities `size/2 - 1` and `dist/2` are nonnegative so any division
  convention agrees there (for even sizes the Python float division is exact);
* the float values `-inf`, ints, `+inf` used by the search become the ordered
  type `Score`;
* Python's best-move variable, initialised to the int `0` and possibly never
  overwritten, becomes `MMove.zero`; the `None` returned at cutoff nodes
  becomes `MMove.noMove`.
-/

namespace Konane

/-- A cell of the board: 'X', 'O' or '.', as in the Python code. -/
abbrev Cell := Char

/-- The board: a list of rows, as the Python list-of-lists. -/
abbrev Board := List (List Cell)

/-- A move `[r1, c1, r2, c2]`, as the Python 4-element list of ints. -/
abbrev Move := List Int

/-- `Konane.opponent`: 'X' ↦ 'O', anything else ↦ 'X'. -/
def opponent (p : Cell) : Cell := if p = 'X' then 'O' else 'X'

/-- `Konane.valid`: the location is on the `n` × `n` board. -/
def valid (n : ℕ) (r c : ℤ) : Bool := 0 ≤ r && 0 ≤ c && r < (n : ℤ) && c < (n : ℤ)

/-- Reading `board[r][c]`.  The Python code only indexes locations it has
checked with `valid` (or that are provably in bounds), so the out-of-range
result `'?'` is never observable on those paths. -/
def getCell (n : ℕ) (b : Board) (r c : ℤ) : Cell :=
  if valid n r c then (b.getD r.toNat []).getD c.toNat '?' else '?'

/-- Writing `board[r][c] = v` (a no-op out of range; the Python code only
writes locations that are in bounds). -/
def setCell (n : ℕ) (b : Board) (r c : ℤ) (v : Cell) : Board :=
  if valid n r c then b.set r.toNat ((b.getD r.toNat []).set c.toNat v) else b

/-- `Konane.contains`: valid location holding the given symbol. -/
def contains (n : ℕ) (b : Board) (r c : ℤ) (s : Cell) : Bool :=
  valid n r c && decide (getCell n b r c = s)

/-- `Konane.countSymbol`: occurrences of `s` in the `n` × `n` window. -/
def countSymbol (n : ℕ) (b : Board) (s : Cell) : ℕ :=
  ((List.range n).map fun r : ℕ =>
    ((List.range n).filter fun c : ℕ =>
      decide (getCell n b (r : ℤ) (c : ℤ) = s)).length).sum

/-- `Konane.distance`: `abs(r1-r2 + c1-c2)` — note this conflates the row and
column deltas exactly as the source does. -/
def distance (r1 c1 r2 c2 : ℤ) : ℤ := |r1 - r2 + (c1 - c2)|

/-- `Konane.openingMove`: at most one empty cell. -/
def openingMove (n : ℕ) (b : Board) : Bool := countSymbol n b '.' ≤ 1

/-- The `n²` cells of an `n` × `n` board, all rows of length `n`. -/
def WF (n : ℕ) (b : Board) : Prop := b.length = n ∧ ∀ row ∈ b, row.length = n

/-- The jump loop of `Konane.nextBoard` (`for i in range(jumps): ...`),
checking and capturing one leg per iteration. -/
def jumpLoop (n : ℕ) (p : Cell) : ℕ → Board → ℤ → ℤ → ℤ → ℤ → Option Board
  | 0, b, _, _, _, _ => some b
  | k + 1, b, r1, c1, dr, dc =>
    if getCell n b (r1 + dr) (c1 + dc) ≠ opponent p then none
    else
      jumpLoop n p k
        (setCell n (setCell n (setCell n b r1 c1 '.') (r1 + dr) (c1 + dc) '.')
          (r1 + 2 * dr) (c1 + 2 * dc) p)
        (r1 + 2 * dr) (c1 + 2 * dc) dr dc

/-- `Konane.nextBoard`: validate and apply one move; `none` is the raised
`GameError`.  `Int.tdiv` is Python's `int(x / y)` truncation toward zero. -/
def nextBoard (n : ℕ) (b : Board) (p : Cell) (mv : Move) : Option Board :=
  let r1 := mv.getD 0 0
  let c1 := mv.getD 1 0
  let r2 := mv.getD 2 0
  let c2 := mv.getD 3 0
  if ¬(valid n r1 c1 ∧ valid n r2 c2) then none
  else if getCell n b r1 c1 ≠ p then none
  else
    let d := distance r1 c1 r2 c2
    if d = 0 then
      if openingMove n b then some (setCell n b r1 c1 '.') else none
    else if getCell n b r2 c2 ≠ '.' then none
    else
      jumpLoop n p (d.tdiv 2).toNat b r1 c1 ((r2 - r1).tdiv d) ((c2 - c1).tdiv d)

/-- `Konane.check` with explicit fuel (the Python recursion stops by itself
because `contains` fails once the factor leaves the board; fuel `n + 1`
always suffices for the axis directions the generator uses, see
`checkAux_mem_iff`). -/
def checkAux (n : ℕ) (b : Board) (r c rd cd : ℤ) (opp : Cell) : ℕ → ℤ → List Move
  | 0, _ => []
  | fuel + 1, factor =>
    if contains n b (r + factor * rd) (c + factor * cd) opp &&
       contains n b (r + (factor + 1) * rd) (c + (factor + 1) * cd) '.' then
      [r, c, r + (factor + 1) * rd, c + (factor + 1) * cd] ::
        checkAux n b r c rd cd opp fuel (factor + 2)
    else []

/-- `Konane.check` as called by the generator. -/
def check (n : ℕ) (b : Board) (r c rd cd factor : ℤ) (opp : Cell) : List Move :=
  checkAux n b r c rd cd opp (n + 1) factor

/-- The direction table `rd = [-1,0,1,0]`, `cd = [0,1,0,-1]`. -/
def dirs : List (ℤ × ℤ) := [(-1, 0), (0, 1), (1, 0), (0, -1)]

/-- `Konane.makeFirstMove`: the fixed removal `[size/2-1]*4` (exact for even
sizes, where Python's float division is an integer). -/
def makeFirstMove (n : ℕ) : List Move := [List.replicate 4 ((n : ℤ) / 2 - 1)]

/-- `Konane.makeSecondMove`: the fixed removal `[size/2-1, size/2]*2`. -/
def makeSecondMove (n : ℕ) : List Move :=
  [[(n : ℤ) / 2 - 1, (n : ℤ) / 2, (n : ℤ) / 2 - 1, (n : ℤ) / 2]]

/-- `Konane.generateMoves`: all legal moves of `p`. -/
def generateMoves (n : ℕ) (b : Board) (p : Cell) : List Move :=
  if openingMove n b then
    if p = 'X' then makeFirstMove n else makeSecondMove n
  else
    (List.range n).flatMap fun r : ℕ =>
      (List.range n).flatMap fun c : ℕ =>
        if getCell n b (r : ℤ) (c : ℤ) = p then
          dirs.flatMap fun d => check n b (r : ℤ) (c : ℤ) d.1 d.2 1 (opponent p)
        else []

/-- One row of `Konane.reset`: append the running value, flipping it after
every cell. -/
def mkRow (v : Cell) : ℕ → List Cell
  | 0 => []
  | k + 1 => v :: mkRow (opponent v) k

/-- `opponent` applied `k` times. -/
def iterOpp : ℕ → Cell → Cell
  | 0, v => v
  | k + 1, v => opponent (iterOpp k v)

/-- The row-building loop of `Konane.reset`: after each row the running value
has been flipped once per cell, and for an even size it is flipped once
more. -/
def rowsFrom (n : ℕ) (v : Cell) : ℕ → List (List Cell)
  | 0 => []
  | k + 1 =>
    mkRow v n :: rowsFrom n (if n % 2 = 0 then opponent (iterOpp n v) else iterOpp n v) k

/-- `Konane.reset`: the starting board. -/
def initialBoard (n : ℕ) : Board := rowsFrom n 'X' n

end Konane

/-- The values manipulated by the search: `-float("inf")`, finite ints,
`float("inf")`. -/
inductive Score where
  | negInf : Score
  | fin (v : ℤ) : Score
  | posInf : Score
deriving DecidableEq

/-- The strict `<` of Python floats restricted to these values. -/
def Score.lt : Score → Score → Bool
  | .negInf, .negInf => false
  | .negInf, _ => true
  | .fin _, .negInf => false
  | .fin a, .fin b => a < b
  | .fin _, .posInf => true
  | .posInf, _ => false

/-- `a <= b` on Python floats (total order, no NaN here): `¬ (b < a)`. -/
def Score.le (a b : Score) : Bool := !Score.lt b a

/-- The second component returned by the search: `None` at cutoff nodes, the
initial int `0` when no child ever improved the running best, or a move. -/
inductive MMove where
  | noMove : MMove
  | zero : MMove
  | chosen (m : Konane.Move) : MMove
deriving DecidableEq

namespace Konane

/-- `MinimaxPlayer.evaluation` (identical in `MinimaxAlphaBetaPlayer` and in
the `eval` of `linh2.py`/`linh3.py`): mobility difference from the fixed
perspective of the searching player `s` (`self.current_player`), with the
opponent-has-no-moves test first. -/
def evaluation (n : ℕ) (s : Cell) (b : Board) : Score :=
  let moves := generateMoves n b s
  let opponentMoves := generateMoves n b (opponent s)
  if opponentMoves.length = 0 then .posInf
  else if moves.length = 0 then .negInf
  else .fin ((moves.length : ℤ) - (opponentMoves.length : ℤ))

/-- The `for move in moves` loop of a MAX node of `MinimaxPlayer.minimax`:
the state is `(curr_backedup_val, best_move)`, updated on strict improvement;
`recur` is the recursive call on the child board (already one level deeper).
`none` is a `GameError` escaping from `nextBoard`. -/
def maxLoop (apply : Move → Option Board) (recur : Board → Option Score) :
    List Move → Score × MMove → Option (Score × MMove)
  | [], st => some st
  | mv :: rest, st => do
    let b' ← apply mv
    let v ← recur b'
    maxLoop apply recur rest (if Score.lt st.1 v then (v, .chosen mv) else st)

/-- The `for move in moves` loop of a MIN node of `MinimaxPlayer.minimax`. -/
def minLoop (apply : Move → Option Board) (recur : Board → Option Score) :
    List Move → Score × MMove → Option (Score × MMove)
  | [], st => some st
  | mv :: rest, st => do
    let b' ← apply mv
    let v ← recur b'
    minLoop apply recur rest (if Score.lt v st.1 then (v, .chosen mv) else st)

/-- `MinimaxPlayer.minimax` of `konane.py`, with fuel `limit - depth` made
explicit (the Python recursion is bounded by the `depth == self.limit` test;
for calls with `depth ≤ limit`, which are the only ones `getMove` produces,
the fuel is never exhausted, see `minimaxAux_fuel_irrelevant`).  `s` is
`self.current_player`; note the child of a MAX node is searched with
`self.opponent(self.current_player)` and the child of a MIN node with
`self.current_player`, exactly as in the source. -/
def minimaxAux (n limit : ℕ) (s : Cell) : ℕ → Board → ℕ → Cell → Option (Score × MMove)
  | 0, b, depth, player =>
    if depth = limit ∨ (generateMoves n b player).length = 0 then
      some (evaluation n s b, .noMove)
    else none
  | fuel + 1, b, depth, player =>
    let moves := generateMoves n b player
    if depth = limit ∨ moves.length = 0 then some (evaluation n s b, .noMove)
    else if depth % 2 = 0 then
      maxLoop (nextBoard n b player)
        (fun b' => (minimaxAux n limit s fuel b' (depth + 1) (opponent s)).map Prod.fst)
        moves (.negInf, .zero)
    else
      minLoop (nextBoard n b player)
        (fun b' => (minimaxAux n limit s fuel b' (depth + 1) s).map Prod.fst)
        moves (.posInf, .zero)

/-- `MinimaxPlayer.minimax` at a node `(b, depth, player)` reached from
`getMove` (where always `depth ≤ limit`). -/
def minimax (n limit : ℕ) (s : Cell) (b : Board) (depth : ℕ) (player : Cell) :
    Option (Score × MMove) :=
  minimaxAux n limit s (limit - depth) b depth player

/-- The MAX-node loop of `MinimaxAlphaBetaPlayer.minimaxAlphaBeta`: `alpha`
is raised on strict improvement, and `alpha >= beta` returns `(beta,
best_move)` early.  `recur` receives the current `alpha`. -/
def abMaxLoop (apply : Move → Option Board) (recur : Board → Score → Score → Option Score)
    (beta : Score) : List Move → Score → MMove → Option (Score × MMove)
  | [], alpha, best => some (alpha, best)
  | mv :: rest, alpha, best => do
    let b' ← apply mv
    let v ← recur b' alpha beta
    let st := if Score.lt alpha v then (v, MMove.chosen mv) else (alpha, best)
    if Score.le beta st.1 then some (beta, st.2)
    else abMaxLoop apply recur beta rest st.1 st.2

/-- The MIN-node loop of `MinimaxAlphaBetaPlayer.minimaxAlphaBeta`,
exactly as written in the source: `if backedup_val > beta` RAISES `beta` (the
comparison is `>`, not `<`), and `alpha >= beta` returns `(alpha, best_move)`
early; the loop ends with `(beta, best_move)`. -/
def abMinLoop (apply : Move → Option Board) (recur : Board → Score → Score → Option Score)
    (alpha : Score) : List Move → Score → MMove → Option (Score × MMove)
  | [], beta, best => some (beta, best)
  | mv :: rest, beta, best => do
    let b' ← apply mv
    let v ← recur b' alpha beta
    let st := if Score.lt beta v then (v, MMove.chosen mv) else (beta, best)
    if Score.le st.1 alpha then some (alpha, st.2)
    else abMinLoop apply recur alpha rest st.1 st.2

/-- `MinimaxAlphaBetaPlayer.minimaxAlphaBeta` of `konane.py`, fuel as in
`minimaxAux`.  Child sides are `opponent s` below MAX nodes and `s` below MIN
nodes, as in the source. -/
def abAux (n limit : ℕ) (s : Cell) :
    ℕ → Board → ℕ → Cell → Score → Score → Option (Score × MMove)
  | 0, b, depth, player, _, _ =>
    if depth = limit ∨ (generateMoves n b player).length = 0 then
      some (evaluation n s b, .noMove)
    else none
  | fuel + 1, b, depth, player, alpha, beta =>
    let moves := generateMoves n b player
    if depth = limit ∨ moves.length = 0 then some (evaluation n s b, .noMove)
    else if depth % 2 = 0 then
      abMaxLoop (nextBoard n b player)
        (fun b' a bet => (abAux n limit s fuel b' (depth + 1) (opponent s) a bet).map Prod.fst)
        beta moves alpha .zero
    else
      abMinLoop (nextBoard n b player)
        (fun b' a bet => (abAux n limit s fuel b' (depth + 1) s a bet).map Prod.fst)
        alpha moves beta .zero

/-- `minimaxAlphaBeta` at a node reached from `getMove`. -/
def minimaxAlphaBeta (n limit : ℕ) (s : Cell) (b : Board) (depth : ℕ) (player : Cell)
    (alpha beta : Score) : Option (Score × MMove) :=
  abAux n limit s (limit - depth) b depth player alpha beta

/-- The `minimax` of `MinimaxPlayer` in `linh3.py` (and `linh2.py`): identical
to `konane.py` except that its cutoff test is `depth == self.depth_limit or
self.isTerminal(n)` where `n` is the BOARD, not the move list, so the
no-legal-move cutoff never fires on a nonempty board. -/
def linh3MinimaxAux (n limit : ℕ) (s : Cell) : ℕ → Board → ℕ → Cell → Option (Score × MMove)
  | 0, b, depth, _ =>
    if depth = limit ∨ b.length = 0 then some (evaluation n s b, .noMove)
    else none
  | fuel + 1, b, depth, player =>
    let moves := generateMoves n b player
    if depth = limit ∨ b.length = 0 then some (evaluation n s b, .noMove)
    else if depth % 2 = 0 then
      maxLoop (nextBoard n b player)
        (fun b' => (linh3MinimaxAux n limit s fuel b' (depth + 1) (opponent s)).map Prod.fst)
        moves (.negInf, .zero)
    else
      minLoop (nextBoard n b player)
        (fun b' => (linh3MinimaxAux n limit s fuel b' (depth + 1) s).map Prod.fst)
        moves (.posInf, .zero)

/-- The root loop of `MinimaxPlayer.getMove`: track the best backed-up value
and the INDEX of the first move attaining it (strict improvement only).
The Python test `if backedup_val == None` can never fire — the first
component of a `minimax` result is always a float — and is omitted. -/
def getMoveLoop (f : Move → Option Score) : List Move → Score → ℕ → ℕ → Option ℕ
  | [], _, bestIdx, _ => some bestIdx
  | mv :: rest, bestVal, bestIdx, idx => do
    let v ← f mv
    if Score.lt bestVal v then getMoveLoop f rest v idx (idx + 1)
    else getMoveLoop f rest bestVal bestIdx (idx + 1)

/-- `MinimaxPlayer.getMove`: `some []` is the returned empty move (concede),
`none` a `GameError` escaping. -/
def getMoveMinimax (n limit : ℕ) (s : Cell) (b : Board) : Option Move :=
  let moves := generateMoves n b s
  if moves.length = 0 then some []
  else do
    let bi ← getMoveLoop (fun mv => do
      let b' ← nextBoard n b s mv
      let r ← minimaxAux n limit s limit b' 0 (opponent s)
      pure r.1) moves .negInf 0 0
    pure (moves.getD bi [])

/-- `MinimaxAlphaBetaPlayer.getMove`: same loop with the alpha-beta search
started at `(-inf, +inf)`. -/
def getMoveAlphaBeta (n limit : ℕ) (s : Cell) (b : Board) : Option Move :=
  let moves := generateMoves n b s
  if moves.length = 0 then some []
  else do
    let bi ← getMoveLoop (fun mv => do
      let b' ← nextBoard n b s mv
      let r ← abAux n limit s limit b' 0 (opponent s) .negInf .posInf
      pure r.1) moves .negInf 0 0
    pure (moves.getD bi [])

/-- The side whose moves `MinimaxPlayer.minimax` generates at each depth of a
search started by `getMove` with searcher `s`, read off the three call sites
of the source: `getMove` starts the recursion at depth 0 with
`self.opponent(self.current_player)`; a MAX node (even depth `d`) recurses to
depth `d+1` with `self.opponent(self.current_player)`; a MIN node (odd depth
`d`) recurses with `self.current_player`. -/
def minimaxSideAt (s : Cell) : ℕ → Cell
  | 0 => opponent s
  | d + 1 => if d % 2 = 0 then opponent s else s

/-- The board after First's fixed removal. -/
def boardAfterX (n : ℕ) : Board :=
  setCell n (initialBoard n) ((n : ℤ) / 2 - 1) ((n : ℤ) / 2 - 1) '.'

/-- The board after the two fixed removals. -/
def boardAfterXO (n : ℕ) : Board :=
  setCell n (boardAfterX n) ((n : ℤ) / 2 - 1) ((n : ℤ) / 2) '.'

/-- The positions reachable in play: the game loop starts from the reset
board with 'X' to move and always applies a move chosen from the generated
ones, alternating sides. -/
inductive Reachable (n : ℕ) : Board → Cell → Prop where
  | init : Reachable n (initialBoard n) 'X'
  | step {b : Board} {p : Cell} {m : Move} {b' : Board} :
      Reachable n b p → m ∈ generateMoves n b p → nextBoard n b p m = some b' →
      Reachable n b' (opponent p)


/-! ## Concrete boards used by the claims -/

/-- 4 × 4 board, 'O' to move, used against the alpha-beta agreement claim:
three one-jump gadgets for O, no move for X anywhere in the subtree. -/
def boardC1 : Board :=
  [['O', 'X', '.', '.'],
   ['.', '.', '.', '.'],
   ['O', 'X', '.', '.'],
   ['O', 'X', '.', '.']]

/-- 4 × 4 board with an X at (0,0) and an empty cell at (0,1). -/
def boardC2 : Board :=
  [['X', '.', '.', '.'],
   ['.', '.', '.', '.'],
   ['.', '.', '.', '.'],
   ['.', '.', '.', 'O']]

/-- 4 × 4 board where X has a jump but O has no move at all. -/
def boardC5 : Board :=
  [['X', 'O', '.', '.'],
   ['.', '.', '.', '.'],
   ['.', '.', '.', '.'],
   ['.', '.', '.', '.']]

/-- 4 × 4 non-opening board where neither side has a move. -/
def boardC6 : Board :=
  [['X', '.', '.', '.'],
   ['.', '.', '.', '.'],
   ['.', '.', '.', '.'],
   ['.', '.', '.', 'O']]

/-- 4 × 4 board with an X-O-'.' jump gadget, for the C4 witness. -/
def boardC4 : Board :=
  [['X', 'O', '.', '.'],
   ['.', '.', '.', '.'],
   ['.', '.', '.', '.'],
   ['.', '.', '.', '.']]

/-- 5 × 5 board whose first row is X O X O '.': the even-distance move
`[0,0,0,4]` is accepted although the intermediate cell (0,2) holds the
mover's own piece, which the landing then overwrites. -/
def boardC8 : Board :=
  [['X', 'O', 'X', 'O', '.'],
   ['.', '.', '.', '.', '.'],
   ['.', '.', '.', '.', '.'],
   ['.', '.', '.', '.', '.'],
   ['.', '.', '.', '.', '.']]

/-- 4 × 4 board with one jump gadget for X, for the C8 witness. -/
def boardC8w : Board :=
  [['X', 'O', '.', '.'],
   ['.', '.', '.', '.'],
   ['.', '.', '.', '.'],
   ['.', '.', '.', '.']]

/-- 4 × 4 non-opening board with one jump gadget, for the C10 witness. -/
def boardC10 : Board :=
  [['X', 'O', '.', '.'],
   ['.', '.', '.', '.'],
   ['.', '.', '.', '.'],
   ['.', '.', '.', '.']]

/-- The legal-jump condition in the words of the claim (the spec side, to be
compared with `generateMoves`): from a cell `(r, c)` holding `p`, in one of
the four axis directions, a jump of length `k ≥ 1` landing at distance `2k`,
where every step `j ≤ k` has the opponent's piece at distance `2j - 1` and an
empty cell at distance `2j`. -/
def specJumpMove (n : ℕ) (b : Board) (p : Cell) (m : Move) : Prop :=
  ∃ (r c : ℕ) (rd cd : ℤ) (k : ℕ), r < n ∧ c < n ∧
    getCell n b (r : ℤ) (c : ℤ) = p ∧
    ((rd, cd) = (-1, 0) ∨ (rd, cd) = (0, 1) ∨ (rd, cd) = (1, 0) ∨ (rd, cd) = (0, -1)) ∧
    1 ≤ k ∧
    m = [(r : ℤ), (c : ℤ), (r : ℤ) + 2 * (k : ℤ) * rd, (c : ℤ) + 2 * (k : ℤ) * cd] ∧
    ∀ j : ℕ, 1 ≤ j → j ≤ k →
      contains n b ((r : ℤ) + (2 * (j : ℤ) - 1) * rd) ((c : ℤ) + (2 * (j : ℤ) - 1) * cd)
        (opponent p) = true ∧
      contains n b ((r : ℤ) + 2 * (j : ℤ) * rd) ((c : ℤ) + 2 * (j : ℤ) * cd) '.' = true


/-! ## Basic lemmas about cells, boards and counting -/

theorem opponent_ne (p : Cell) : opponent p ≠ p := by
  unfold opponent
  split
  · rename_i h; rw [h]; decide
  · rename_i h; exact fun hc => h hc.symm

theorem valid_iff {n : ℕ} {r c : ℤ} :
    valid n r c = true ↔ 0 ≤ r ∧ 0 ≤ c ∧ r < (n : ℤ) ∧ c < (n : ℤ) := by
  simp [valid, and_assoc]

theorem getD_set_ne {α : Type _} (l : List α) {i j : ℕ} (h : i ≠ j) (a d : α) :
    (l.set i a).getD j d = l.getD j d := by
  simp [List.getD_eq_getElem?_getD, List.getElem?_set, h]

theorem getD_set_self {α : Type _} (l : List α) {i : ℕ} (h : i < l.length) (a d : α) :
    (l.set i a).getD i d = a := by
  simp [List.getD_eq_getElem?_getD, List.getElem?_set, h]

theorem WF_setCell {n : ℕ} {b : Board} (hb : WF n b) (r c : ℤ) (v : Cell) :
    WF n (setCell n b r c v) := by
  unfold setCell
  split
  · rcases Nat.lt_or_ge r.toNat b.length with hlt | hge
    · refine ⟨by simpa using hb.1, fun row hrow => ?_⟩
      rcases List.mem_or_eq_of_mem_set hrow with h | h
      · exact hb.2 row h
      · subst h
        rw [List.length_set]
        have : b.getD r.toNat [] ∈ b := by
          rw [List.getD_eq_getElem b [] hlt]
          exact List.getElem_mem hlt
        exact hb.2 _ this
    · rw [List.set_eq_of_length_le hge]
      exact hb
  · exact hb

theorem getCell_setCell_ne {n : ℕ} {b : Board} {r c r' c' : ℤ}
    (h : ¬(r = r' ∧ c = c')) (v : Cell) :
    getCell n (setCell n b r c v) r' c' = getCell n b r' c' := by
  unfold setCell
  split
  · rename_i hv
    unfold getCell
    split
    · rename_i hv'
      rcases valid_iff.1 hv with ⟨hr0, hc0, hrn, hcn⟩
      rcases valid_iff.1 hv' with ⟨hr0', hc0', hrn', hcn'⟩
      rcases Nat.lt_or_ge r.toNat b.length with hrow | hrow
      · by_cases hrr : r.toNat = r'.toNat
        · have : r = r' := by omega
          subst this
          have hcc : c.toNat ≠ c'.toNat := by
            have : c ≠ c' := fun hc => h ⟨rfl, hc⟩
            omega
          rw [getD_set_self _ hrow, getD_set_ne _ hcc]
        · rw [getD_set_ne _ hrr]
      · rw [List.set_eq_of_length_le hrow]
    · rfl
  · rfl

theorem getCell_setCell_self {n : ℕ} {b : Board} {r c : ℤ}
    (hv : valid n r c = true) (hb : WF n b) (v : Cell) :
    getCell n (setCell n b r c v) r c = v := by
  rcases valid_iff.1 hv with ⟨hr0, hc0, hrn, hcn⟩
  have hrow : r.toNat < b.length := by rw [hb.1]; omega
  have hmem : b.getD r.toNat [] ∈ b := by
    rw [List.getD_eq_getElem b [] hrow]
    exact List.getElem_mem hrow
  have hcol : c.toNat < (b.getD r.toNat []).length := by
    rw [hb.2 _ hmem]; omega
  unfold getCell setCell
  rw [if_pos hv, if_pos hv, getD_set_self _ hrow, getD_set_self _ hcol]

/-- Changing one position `c₀ < m` of a predicate changes the count of hits
over `range m` by the difference in the indicator at that position. -/
theorem filter_length_update (f g : ℕ → Bool) (c₀ : ℕ)
    (hag : ∀ j, j ≠ c₀ → f j = g j) :
    ∀ m, c₀ < m →
      ((List.range m).filter f).length + (if g c₀ then 1 else 0) =
      ((List.range m).filter g).length + (if f c₀ then 1 else 0) := by
  intro m
  induction m with
  | zero => omega
  | succ m ih =>
    intro hc
    rw [List.range_succ, List.filter_append, List.filter_append,
      List.length_append, List.length_append]
    rcases Nat.lt_or_ge c₀ m with hlt | hge
    · have hm : f m = g m := hag m (by omega)
      have := ih hlt
      simp only [List.filter_cons, List.filter_nil, hm]
      split <;> simp <;> omega
    · have hc₀ : c₀ = m := by omega
      subst hc₀
      have hfg : ((List.range c₀).filter f).length = ((List.range c₀).filter g).length := by
        rw [List.filter_congr (fun x hx => hag x (by simp at hx; omega))]
      simp only [List.filter_cons, List.filter_nil]
      rcases hf : f c₀ <;> rcases hg : g c₀ <;> simp [hf, hg] <;> omega

/-- Changing one term `r₀ < m` of a sum over `range m`. -/
theorem sum_map_update (F G : ℕ → ℕ) (r₀ : ℕ)
    (hag : ∀ j, j ≠ r₀ → F j = G j) :
    ∀ m, r₀ < m →
      ((List.range m).map F).sum + G r₀ = ((List.range m).map G).sum + F r₀ := by
  intro m
  induction m with
  | zero => omega
  | succ m ih =>
    intro hr
    rw [List.range_succ, List.map_append, List.map_append, List.sum_append, List.sum_append]
    rcases Nat.lt_or_ge r₀ m with hlt | hge
    · have hm : F m = G m := hag m (by omega)
      have := ih hlt
      simp only [List.map_cons, List.map_nil, List.sum_cons, List.sum_nil, hm]
      omega
    · have hr₀ : r₀ = m := by omega
      subst hr₀
      have hfg : ((List.range r₀).map F).sum = ((List.range r₀).map G).sum := by
        congr 1
        exact List.map_congr_left (fun x hx => hag x (by simp at hx; omega))
      simp only [List.map_cons, List.map_nil, List.sum_cons, List.sum_nil]
      omega

/-- Two boards with the same cells in the `n` × `n` window have the same
symbol counts. -/
theorem countSymbol_congr {n : ℕ} {b b' : Board}
    (h : ∀ r c : ℕ, r < n → c < n → getCell n b (r : ℤ) (c : ℤ) = getCell n b' (r : ℤ) (c : ℤ))
    (s : Cell) : countSymbol n b s = countSymbol n b' s := by
  unfold countSymbol
  congr 1
  refine List.map_congr_left (fun i hi => ?_)
  refine congrArg List.length (List.filter_congr (fun j hj => ?_))
  simp only [List.mem_range] at hi hj
  rw [h i j hi hj]

/-- Effect of one in-bounds write on a symbol count, in subtraction-free
form: `count after + (old cell hits) = count before + (new value hits)`. -/
theorem countSymbol_setCell {n : ℕ} {b : Board} {r c : ℤ}
    (hv : valid n r c = true) (hb : WF n b) (v s : Cell) :
    countSymbol n (setCell n b r c v) s + (if getCell n b r c = s then 1 else 0) =
    countSymbol n b s + (if v = s then 1 else 0) := by
  rcases valid_iff.1 hv with ⟨hr0, hc0, hrn, hcn⟩
  have hrt : ((r.toNat : ℤ)) = r := by omega
  have hct : ((c.toNat : ℤ)) = c := by omega
  have hnew : getCell n (setCell n b r c v) r c = v := getCell_setCell_self hv hb v
  have hagF : ∀ j, j ≠ r.toNat →
      (fun r' : ℕ => ((List.range n).filter fun c' : ℕ =>
        decide (getCell n (setCell n b r c v) (r' : ℤ) (c' : ℤ) = s)).length) j =
      (fun r' : ℕ => ((List.range n).filter fun c' : ℕ =>
        decide (getCell n b (r' : ℤ) (c' : ℤ) = s)).length) j := by
    intro j hj
    refine congrArg List.length (List.filter_congr (fun c' _ => ?_))
    have heq : getCell n (setCell n b r c v) (j : ℤ) (c' : ℤ) = getCell n b (j : ℤ) (c' : ℤ) := by
      apply getCell_setCell_ne
      rintro ⟨h1, h2⟩
      omega
    rw [heq]
  have hrow : ∀ c' : ℕ, c' ≠ c.toNat →
      (fun c' : ℕ => decide (getCell n (setCell n b r c v) (r.toNat : ℤ) (c' : ℤ) = s)) c' =
      (fun c' : ℕ => decide (getCell n b (r.toNat : ℤ) (c' : ℤ) = s)) c' := by
    intro c' hc'
    have heq : getCell n (setCell n b r c v) (r.toNat : ℤ) (c' : ℤ) =
        getCell n b (r.toNat : ℤ) (c' : ℤ) := by
      apply getCell_setCell_ne
      rintro ⟨h1, h2⟩
      omega
    simp only [heq]
  have hinn := filter_length_update _ _ c.toNat hrow n (by omega)
  have hsum := sum_map_update _ _ r.toNat hagF n (by omega)
  simp only [hrt, hct, hnew, decide_eq_true_eq] at hinn hsum
  unfold countSymbol
  omega

/-! ## The initial board -/

theorem opponent_opponent {v : Cell} (h : v = 'X' ∨ v = 'O') :
    opponent (opponent v) = v := by
  rcases h with h | h <;> subst h <;> decide

theorem opponent_mem {v : Cell} (h : v = 'X' ∨ v = 'O') :
    opponent v = 'X' ∨ opponent v = 'O' := by
  rcases h with h | h <;> subst h <;> decide

theorem iterOpp_shift (j : ℕ) (v : Cell) : iterOpp j (opponent v) = iterOpp (j + 1) v := by
  induction j with
  | zero => rfl
  | succ j ih => rw [iterOpp, ih]; rfl

theorem iterOpp_parity {v : Cell} (h : v = 'X' ∨ v = 'O') (k : ℕ) :
    iterOpp k v = if k % 2 = 0 then v else opponent v := by
  induction k with
  | zero => simp [iterOpp]
  | succ k ih =>
    rw [iterOpp, ih]
    by_cases hk : k % 2 = 0
    · rw [if_pos hk, if_neg (by omega)]
    · rw [if_neg hk, if_pos (by omega), opponent_opponent h]

theorem mkRow_length (v : Cell) (m : ℕ) : (mkRow v m).length = m := by
  induction m generalizing v with
  | zero => rfl
  | succ m ih => simp [mkRow, ih]

theorem mkRow_getD (m : ℕ) : ∀ (v : Cell) (j : ℕ), j < m →
    (mkRow v m).getD j '?' = iterOpp j v := by
  induction m with
  | zero => omega
  | succ m ih =>
    intro v j hj
    cases j with
    | zero => rfl
    | succ j => rw [mkRow, List.getD_cons_succ, ih _ j (by omega), iterOpp_shift]

theorem rowsFrom_length (n : ℕ) : ∀ (k : ℕ) (v : Cell), (rowsFrom n v k).length = k := by
  intro k
  induction k with
  | zero => intro v; rfl
  | succ k ih => intro v; simp [rowsFrom, ih]

theorem rowsFrom_mem (n : ℕ) : ∀ (k : ℕ) (v : Cell) (row : List Cell),
    row ∈ rowsFrom n v k → ∃ w, row = mkRow w n := by
  intro k
  induction k with
  | zero => intro v row h; simp [rowsFrom] at h
  | succ k ih =>
    intro v row h
    rw [rowsFrom, List.mem_cons] at h
    rcases h with h | h
    · exact ⟨v, h⟩
    · exact ih _ row h

theorem WF_initialBoard (n : ℕ) : WF n (initialBoard n) := by
  refine ⟨rowsFrom_length n n 'X', fun row hrow => ?_⟩
  rcases rowsFrom_mem n n 'X' row hrow with ⟨w, hw⟩
  rw [hw, mkRow_length]

theorem rowsFrom_getD_even {n : ℕ} (hn : n % 2 = 0) :
    ∀ (k : ℕ) (v : Cell), (v = 'X' ∨ v = 'O') → ∀ i : ℕ, i < k →
    (rowsFrom n v k).getD i [] = mkRow (if i % 2 = 0 then v else opponent v) n := by
  intro k
  induction k with
  | zero => omega
  | succ k ih =>
    intro v hv i hi
    cases i with
    | zero => rw [rowsFrom, List.getD_cons_zero, if_pos (by omega)]
    | succ i =>
      rw [rowsFrom, List.getD_cons_succ]
      have hnext : (if n % 2 = 0 then opponent (iterOpp n v) else iterOpp n v) = opponent v := by
        rw [if_pos hn, iterOpp_parity hv, if_pos hn]
      rw [hnext, ih (opponent v) (opponent_mem hv) i (by omega)]
      by_cases hpar : i % 2 = 0
      · rw [if_pos hpar, if_neg (by omega)]
      · rw [if_neg hpar, if_pos (by omega), opponent_opponent hv]

theorem getCell_initialBoard {n : ℕ} (hn : n % 2 = 0) {r c : ℕ} (hr : r < n) (hc : c < n) :
    getCell n (initialBoard n) (r : ℤ) (c : ℤ) =
      if (r + c) % 2 = 0 then 'X' else 'O' := by
  have hv : valid n (r : ℤ) (c : ℤ) = true := valid_iff.2 (by omega)
  unfold getCell initialBoard
  rw [if_pos hv]
  have htr : ((r : ℤ)).toNat = r := by omega
  have htc : ((c : ℤ)).toNat = c := by omega
  rw [htr, htc, rowsFrom_getD_even hn n 'X' (Or.inl rfl) r hr, mkRow_getD n _ c hc]
  by_cases hrp : r % 2 = 0
  · rw [if_pos hrp, iterOpp_parity (Or.inl rfl)]
    by_cases hcp : c % 2 = 0
    · rw [if_pos hcp, if_pos (by omega)]
    · rw [if_neg hcp, if_neg (by omega)]; rfl
  · rw [if_neg hrp]
    have : opponent 'X' = 'O' := rfl
    rw [this, iterOpp_parity (Or.inr rfl)]
    by_cases hcp : c % 2 = 0
    · rw [if_pos hcp, if_neg (by omega)]
    · rw [if_neg hcp, if_pos (by omega)]; rfl

theorem countSymbol_initialBoard_empty {n : ℕ} (hn : n % 2 = 0) :
    countSymbol n (initialBoard n) '.' = 0 := by
  unfold countSymbol
  refine List.sum_eq_zero (fun x hx => ?_)
  simp only [List.mem_map, List.mem_range] at hx
  rcases hx with ⟨r, hr, hx⟩
  subst hx
  simp only [List.length_eq_zero]
  rw [List.filter_eq_nil_iff]
  intro c hc
  simp only [List.mem_range] at hc
  rw [getCell_initialBoard hn hr hc]
  by_cases hp : (r + c) % 2 = 0 <;> simp [hp]

/-! ## Characterisation of the move generator -/

/-- Membership in `checkAux`: the move jumping to factor `f + 2k + 1` is
produced exactly when every step `j ≤ k` of the chain has the opponent at
factor `f + 2j` and an empty cell at factor `f + 2j + 1`. -/
theorem checkAux_mem_iff {n : ℕ} {b : Board} {r c rd cd : ℤ} {opp : Cell} :
    ∀ (fuel : ℕ) (f : ℤ) (m : Move),
    m ∈ checkAux n b r c rd cd opp fuel f ↔
    ∃ k : ℕ, k < fuel ∧
      m = [r, c, r + (f + 2 * (k : ℤ) + 1) * rd, c + (f + 2 * (k : ℤ) + 1) * cd] ∧
      ∀ j : ℕ, j ≤ k →
        contains n b (r + (f + 2 * (j : ℤ)) * rd) (c + (f + 2 * (j : ℤ)) * cd) opp = true ∧
        contains n b (r + (f + 2 * (j : ℤ) + 1) * rd) (c + (f + 2 * (j : ℤ) + 1) * cd) '.'
          = true := by
  intro fuel
  induction fuel with
  | zero => intro f m; simp [checkAux]
  | succ fuel ih =>
    intro f m
    rw [checkAux]
    split
    · rename_i hcond
      rw [Bool.and_eq_true] at hcond
      rcases hcond with ⟨hA, hB⟩
      rw [List.mem_cons, ih (f + 2) m]
      constructor
      · rintro (hm | ⟨k, hk, hm, hrun⟩)
        · refine ⟨0, by omega, ?_, ?_⟩
          · rw [hm]; push_cast; ring_nf
          · intro j hj
            have hj0 : j = 0 := by omega
            subst hj0
            constructor
            · push_cast at hA ⊢; ring_nf at hA ⊢; exact hA
            · push_cast at hB ⊢; ring_nf at hB ⊢; exact hB
        · refine ⟨k + 1, by omega, ?_, ?_⟩
          · rw [hm]; push_cast; ring_nf
          · intro j hj
            cases j with
            | zero =>
              constructor
              · push_cast at hA ⊢; ring_nf at hA ⊢; exact hA
              · push_cast at hB ⊢; ring_nf at hB ⊢; exact hB
            | succ j =>
              have hr := hrun j (by omega)
              constructor
              · have h1 := hr.1
                push_cast at h1 ⊢; ring_nf at h1 ⊢; exact h1
              · have h2 := hr.2
                push_cast at h2 ⊢; ring_nf at h2 ⊢; exact h2
      · rintro ⟨k, hk, hm, hrun⟩
        cases k with
        | zero =>
          left
          rw [hm]
          push_cast
          ring_nf
        | succ k =>
          right
          refine ⟨k, by omega, ?_, ?_⟩
          · rw [hm]; push_cast; ring_nf
          · intro j hj
            have hr := hrun (j + 1) (by omega)
            constructor
            · have h1 := hr.1
              push_cast at h1 ⊢; ring_nf at h1 ⊢; exact h1
            · have h2 := hr.2
              push_cast at h2 ⊢; ring_nf at h2 ⊢; exact h2
    · rename_i hcond
      simp only [List.not_mem_nil, false_iff]
      rintro ⟨k, hk, hm, hrun⟩
      have h0 := hrun 0 (by omega)
      apply hcond
      rw [Bool.and_eq_true]
      constructor
      · have h1 := h0.1
        push_cast at h1 ⊢; ring_nf at h1 ⊢; exact h1
      · have h2 := h0.2
        push_cast at h2 ⊢; ring_nf at h2 ⊢; exact h2

theorem contains_valid {n : ℕ} {b : Board} {x y : ℤ} {s : Cell}
    (h : contains n b x y s = true) : valid n x y = true := by
  unfold contains at h
  rw [Bool.and_eq_true] at h
  exact h.1

theorem contains_getCell {n : ℕ} {b : Board} {x y : ℤ} {s : Cell}
    (h : contains n b x y s = true) : getCell n b x y = s := by
  unfold contains at h
  rw [Bool.and_eq_true] at h
  simpa using h.2

/-- A direction is one of the four axis unit vectors of the table. -/
theorem mem_dirs_iff (d : ℤ × ℤ) :
    d ∈ dirs ↔ d = (-1, 0) ∨ d = (0, 1) ∨ d = (1, 0) ∨ d = (0, -1) := by
  simp [dirs]

/-- Characterisation of `generateMoves` on a non-opening board: `m` is
generated for `p` iff it is the jump of some length `k ≥ 1` from some cell of
`p` in one of the four axis directions whose whole chain alternates
opponent / empty. -/
theorem generateMoves_mem_iff {n : ℕ} {b : Board} {p : Cell}
    (hop : openingMove n b = false) (m : Move) :
    m ∈ generateMoves n b p ↔
    ∃ (r c : ℕ) (rd cd : ℤ) (k : ℕ), r < n ∧ c < n ∧
      getCell n b (r : ℤ) (c : ℤ) = p ∧
      ((rd, cd) = (-1, 0) ∨ (rd, cd) = (0, 1) ∨ (rd, cd) = (1, 0) ∨ (rd, cd) = (0, -1)) ∧
      1 ≤ k ∧
      m = [(r : ℤ), (c : ℤ), (r : ℤ) + 2 * (k : ℤ) * rd, (c : ℤ) + 2 * (k : ℤ) * cd] ∧
      ∀ j : ℕ, 1 ≤ j → j ≤ k →
        contains n b ((r : ℤ) + (2 * (j : ℤ) - 1) * rd) ((c : ℤ) + (2 * (j : ℤ) - 1) * cd)
          (opponent p) = true ∧
        contains n b ((r : ℤ) + 2 * (j : ℤ) * rd) ((c : ℤ) + 2 * (j : ℤ) * cd) '.' = true := by
  unfold generateMoves
  rw [hop]
  simp only [Bool.false_eq_true, if_false]
  constructor
  · intro hm
    simp only [List.mem_flatMap, List.mem_range] at hm
    obtain ⟨r, hr, c, hc, hm⟩ := hm
    by_cases hcell : getCell n b (r : ℤ) (c : ℤ) = p
    swap
    · rw [if_neg hcell] at hm
      simp at hm
    rw [if_pos hcell] at hm
    simp only [List.mem_flatMap] at hm
    obtain ⟨d, hd, hm⟩ := hm
    unfold check at hm
    obtain ⟨k', hk', hmv, hrun⟩ := (checkAux_mem_iff (n + 1) 1 m).1 hm
    refine ⟨r, c, d.1, d.2, k' + 1, hr, hc, hcell, ?_, by omega, ?_, ?_⟩
    · rcases (mem_dirs_iff d).1 hd with h | h | h | h <;> rw [h] <;> simp
    · rw [hmv]
      push_cast
      ring_nf
    · intro j h1 hk
      have hj' : j - 1 ≤ k' := by omega
      have hr' := hrun (j - 1) hj'
      have hcast : ((j - 1 : ℕ) : ℤ) = (j : ℤ) - 1 := by omega
      constructor
      · have h := hr'.1
        rw [hcast] at h
        ring_nf at h ⊢
        exact h
      · have h := hr'.2
        rw [hcast] at h
        ring_nf at h ⊢
        exact h
  · rintro ⟨r, c, rd, cd, k, hr, hc, hcell, hdir, hk1, hmv, hrun⟩
    have hlast := hrun k hk1 (le_refl k)
    have hv := valid_iff.1 (contains_valid hlast.2)
    have hbound : k - 1 < n + 1 := by
      rcases hdir with h | h | h | h <;>
        (rw [Prod.mk.injEq] at h; rcases h with ⟨h1, h2⟩; subst h1; subst h2) <;>
        (simp only [mul_zero, add_zero, mul_one, mul_neg] at hv) <;> omega
    simp only [List.mem_flatMap, List.mem_range]
    refine ⟨r, hr, c, hc, ?_⟩
    rw [if_pos hcell]
    simp only [List.mem_flatMap]
    refine ⟨(rd, cd), (mem_dirs_iff (rd, cd)).2 hdir, ?_⟩
    unfold check
    refine (checkAux_mem_iff (n + 1) 1 m).2 ⟨k - 1, hbound, ?_, ?_⟩
    · rw [hmv]
      have hcast : ((k - 1 : ℕ) : ℤ) = (k : ℤ) - 1 := by omega
      rw [hcast]
      push_cast
      ring_nf
    · intro j hj
      have hj1 : 1 ≤ j + 1 := by omega
      have hjk : j + 1 ≤ k := by omega
      have hr' := hrun (j + 1) hj1 hjk
      constructor
      · have h := hr'.1
        push_cast at h ⊢
        ring_nf at h ⊢
        exact h
      · have h := hr'.2
        push_cast at h ⊢
        ring_nf at h ⊢
        exact h

/-! ## The jump loop of the applicator -/

/-- Two distinct offsets along a nonzero direction give distinct cells. -/
theorem offset_ne {r c dr dc : ℤ} (hdr : ¬(dr = 0 ∧ dc = 0)) {a e : ℤ} (hae : a ≠ e) :
    ¬(r + a * dr = r + e * dr ∧ c + a * dc = c + e * dc) := by
  rintro ⟨h1, h2⟩
  have hr' : (a - e) * dr = 0 := by ring_nf; linarith
  have hc' : (a - e) * dc = 0 := by ring_nf; linarith
  rcases mul_eq_zero.1 hr' with h | h
  · exact hae (by omega)
  · rcases mul_eq_zero.1 hc' with h' | h'
    · exact hae (by omega)
    · exact hdr ⟨h, h'⟩

/-- Reading an offset `a ∉ {0, 1, 2}` after the three writes of one loop
iteration sees the original board. -/
theorem getCell_three_sets {n : ℕ} {p : Cell} {b : Board} {r c dr dc : ℤ}
    (hdr : ¬(dr = 0 ∧ dc = 0)) (a : ℤ) (ha : a ≠ 0 ∧ a ≠ 1 ∧ a ≠ 2) :
    getCell n (setCell n (setCell n (setCell n b r c '.')
        (r + dr) (c + dc) '.') (r + 2 * dr) (c + 2 * dc) p)
      (r + a * dr) (c + a * dc) = getCell n b (r + a * dr) (c + a * dc) := by
  rw [getCell_setCell_ne, getCell_setCell_ne, getCell_setCell_ne]
  · rintro ⟨h1, h2⟩
    exact offset_ne (r := r) (c := c) hdr (a := (0 : ℤ)) (e := a) (by omega)
      ⟨by linarith, by linarith⟩
  · rintro ⟨h1, h2⟩
    exact offset_ne (r := r) (c := c) hdr (a := (1 : ℤ)) (e := a) (by omega)
      ⟨by linarith, by linarith⟩
  · exact offset_ne (r := r) (c := c) hdr (a := (2 : ℤ)) (e := a) (by omega)

/-- The jump loop raises `GameError` iff some checked stepping stone of the
ORIGINAL board does not hold the opponent's piece (the loop checks the
mutated board, but the checked cells are never among the previously written
ones). -/
theorem jumpLoop_none_iff {n : ℕ} {p : Cell} {dr dc : ℤ} (hdr : ¬(dr = 0 ∧ dc = 0)) :
    ∀ (k : ℕ) (b : Board) (r c : ℤ),
    (jumpLoop n p k b r c dr dc = none ↔
      ∃ i : ℕ, i < k ∧
        getCell n b (r + (2 * (i : ℤ) + 1) * dr) (c + (2 * (i : ℤ) + 1) * dc) ≠ opponent p) := by
  intro k
  induction k with
  | zero =>
    intro b r c
    simp [jumpLoop]
  | succ k ih =>
    intro b r c
    rw [jumpLoop]
    split
    · rename_i hfail
      simp only [true_iff]
      refine ⟨0, by omega, ?_⟩
      have e1 : r + (2 * ((0 : ℕ) : ℤ) + 1) * dr = r + dr := by push_cast; ring
      have e2 : c + (2 * ((0 : ℕ) : ℤ) + 1) * dc = c + dc := by push_cast; ring
      rw [e1, e2]
      exact hfail
    · rename_i hpass
      rw [not_not] at hpass
      rw [ih]
      have htrans : ∀ i : ℕ,
          getCell n (setCell n (setCell n (setCell n b r c '.') (r + dr) (c + dc) '.')
              (r + 2 * dr) (c + 2 * dc) p)
            (r + 2 * dr + (2 * (i : ℤ) + 1) * dr) (c + 2 * dc + (2 * (i : ℤ) + 1) * dc) =
          getCell n b (r + (2 * (i : ℤ) + 3) * dr) (c + (2 * (i : ℤ) + 3) * dc) := by
        intro i
        have e1 : r + 2 * dr + (2 * (i : ℤ) + 1) * dr = r + (2 * (i : ℤ) + 3) * dr := by ring
        have e2 : c + 2 * dc + (2 * (i : ℤ) + 1) * dc = c + (2 * (i : ℤ) + 3) * dc := by ring
        rw [e1, e2]
        exact getCell_three_sets hdr (2 * (i : ℤ) + 3) (by omega)
      constructor
      · rintro ⟨i, hi, hne⟩
        rw [htrans i] at hne
        refine ⟨i + 1, by omega, ?_⟩
        have e3 : r + (2 * ((i + 1 : ℕ) : ℤ) + 1) * dr = r + (2 * (i : ℤ) + 3) * dr := by
          push_cast; ring
        have e4 : c + (2 * ((i + 1 : ℕ) : ℤ) + 1) * dc = c + (2 * (i : ℤ) + 3) * dc := by
          push_cast; ring
        rw [e3, e4]
        exact hne
      · rintro ⟨i, hi, hne⟩
        cases i with
        | zero =>
          exfalso
          apply hne
          have e1 : r + (2 * ((0 : ℕ) : ℤ) + 1) * dr = r + dr := by push_cast; ring
          have e2 : c + (2 * ((0 : ℕ) : ℤ) + 1) * dc = c + dc := by push_cast; ring
          rw [e1, e2]
          exact hpass
        | succ i =>
          refine ⟨i, by omega, ?_⟩
          rw [htrans i]
          have e3 : r + (2 * ((i + 1 : ℕ) : ℤ) + 1) * dr = r + (2 * (i : ℤ) + 3) * dr := by
            push_cast; ring
          have e4 : c + (2 * ((i + 1 : ℕ) : ℤ) + 1) * dc = c + (2 * (i : ℤ) + 3) * dc := by
            push_cast; ring
          rw [e3, e4] at hne
          exact hne

/-- A run of `k` legal legs (opponent at each odd offset, empty at each even
offset `2..2k`) makes the jump loop succeed, preserves the mover's piece
count, removes `k` opponent pieces and adds `k` empty cells. -/
theorem jumpLoop_spec {n : ℕ} {p : Cell} (hp : p = 'X' ∨ p = 'O') {dr dc : ℤ}
    (hdr : ¬(dr = 0 ∧ dc = 0)) :
    ∀ (k : ℕ) (b : Board) (r c : ℤ), WF n b →
    valid n r c = true →
    getCell n b r c = p →
    (∀ j : ℕ, 1 ≤ j → j ≤ 2 * k →
      valid n (r + (j : ℤ) * dr) (c + (j : ℤ) * dc) = true ∧
      getCell n b (r + (j : ℤ) * dr) (c + (j : ℤ) * dc) =
        (if j % 2 = 1 then opponent p else '.')) →
    ∃ b', jumpLoop n p k b r c dr dc = some b' ∧ WF n b' ∧
      countSymbol n b' p = countSymbol n b p ∧
      countSymbol n b' (opponent p) + k = countSymbol n b (opponent p) ∧
      countSymbol n b' '.' = countSymbol n b '.' + k := by
  have hpdot : p ≠ '.' := by rcases hp with h | h <;> subst h <;> decide
  have hopdot : opponent p ≠ '.' := by rcases hp with h | h <;> subst h <;> decide
  have hopp : opponent p ≠ p := opponent_ne p
  intro k
  induction k with
  | zero =>
    intro b r c hb _ _ _
    exact ⟨b, by simp [jumpLoop], hb, rfl, by omega, by omega⟩
  | succ k ih =>
    intro b r c hb hv0 hc0 hrun
    have h1v : valid n (r + dr) (c + dc) = true := by
      have h := (hrun 1 (by omega) (by omega)).1
      push_cast at h
      ring_nf at h ⊢
      exact h
    have h1g : getCell n b (r + dr) (c + dc) = opponent p := by
      have h := (hrun 1 (by omega) (by omega)).2
      norm_num at h
      ring_nf at h ⊢
      exact h
    have h2v : valid n (r + 2 * dr) (c + 2 * dc) = true := by
      have h := (hrun 2 (by omega) (by omega)).1
      push_cast at h
      ring_nf at h ⊢
      exact h
    have h2g : getCell n b (r + 2 * dr) (c + 2 * dc) = '.' := by
      have h := (hrun 2 (by omega) (by omega)).2
      norm_num at h
      ring_nf at h ⊢
      exact h
    rw [jumpLoop, if_neg (not_not.2 h1g)]
    set b1 := setCell n b r c '.' with hb1def
    set b2 := setCell n b1 (r + dr) (c + dc) '.' with hb2def
    set b3 := setCell n b2 (r + 2 * dr) (c + 2 * dc) p with hb3def
    have hWF1 : WF n b1 := WF_setCell hb _ _ _
    have hWF2 : WF n b2 := WF_setCell hWF1 _ _ _
    have hWF3 : WF n b3 := WF_setCell hWF2 _ _ _
    have hne01 : ¬(r = r + dr ∧ c = c + dc) := by
      rintro ⟨e1, e2⟩
      exact hdr ⟨by linarith, by linarith⟩
    have hne02 : ¬(r = r + 2 * dr ∧ c = c + 2 * dc) := by
      rintro ⟨e1, e2⟩
      exact hdr ⟨by linarith, by linarith⟩
    have hne12 : ¬(r + dr = r + 2 * dr ∧ c + dc = c + 2 * dc) := by
      rintro ⟨e1, e2⟩
      exact hdr ⟨by linarith, by linarith⟩
    have hg1 : getCell n b1 (r + dr) (c + dc) = opponent p := by
      rw [hb1def, getCell_setCell_ne hne01]
      exact h1g
    have hg2 : getCell n b2 (r + 2 * dr) (c + 2 * dc) = '.' := by
      rw [hb2def, getCell_setCell_ne hne12, hb1def, getCell_setCell_ne hne02]
      exact h2g
    have hg3 : getCell n b3 (r + 2 * dr) (c + 2 * dc) = p :=
      getCell_setCell_self h2v hWF2 p
    -- the nine counting equations
    have A1p := countSymbol_setCell hv0 hb '.' p
    rw [hc0, if_pos rfl, if_neg (fun h => hpdot h.symm)] at A1p
    have A1o := countSymbol_setCell hv0 hb '.' (opponent p)
    rw [hc0, if_neg (fun h => hopp h.symm), if_neg (fun h => hopdot h.symm)] at A1o
    have A1d := countSymbol_setCell hv0 hb '.' '.'
    rw [hc0, if_neg hpdot, if_pos rfl] at A1d
    have A2p := countSymbol_setCell h1v hWF1 '.' p
    rw [hg1, if_neg hopp, if_neg (fun h => hpdot h.symm)] at A2p
    have A2o := countSymbol_setCell h1v hWF1 '.' (opponent p)
    rw [hg1, if_pos rfl, if_neg (fun h => hopdot h.symm)] at A2o
    have A2d := countSymbol_setCell h1v hWF1 '.' '.'
    rw [hg1, if_neg hopdot, if_pos rfl] at A2d
    have A3p := countSymbol_setCell h2v hWF2 p p
    rw [hg2, if_neg (fun h => hpdot h.symm), if_pos rfl] at A3p
    have A3o := countSymbol_setCell h2v hWF2 p (opponent p)
    rw [hg2, if_neg (fun h => hopdot h.symm), if_neg (fun h => hopp h.symm)] at A3o
    have A3d := countSymbol_setCell h2v hWF2 p '.'
    rw [hg2, if_pos rfl, if_neg hpdot] at A3d
    -- run conditions one leg further in
    have hrun' : ∀ j : ℕ, 1 ≤ j → j ≤ 2 * k →
        valid n (r + 2 * dr + (j : ℤ) * dr) (c + 2 * dc + (j : ℤ) * dc) = true ∧
        getCell n b3 (r + 2 * dr + (j : ℤ) * dr) (c + 2 * dc + (j : ℤ) * dc) =
          (if j % 2 = 1 then opponent p else '.') := by
      intro j hj1 hj2
      have hj := hrun (j + 2) (by omega) (by omega)
      have epr : r + 2 * dr + (j : ℤ) * dr = r + ((j + 2 : ℕ) : ℤ) * dr := by push_cast; ring
      have epc : c + 2 * dc + (j : ℤ) * dc = c + ((j + 2 : ℕ) : ℤ) * dc := by push_cast; ring
      have ethree : getCell n b3 (r + ((j + 2 : ℕ) : ℤ) * dr) (c + ((j + 2 : ℕ) : ℤ) * dc) =
          getCell n b (r + ((j + 2 : ℕ) : ℤ) * dr) (c + ((j + 2 : ℕ) : ℤ) * dc) := by
        have e5 : r + ((j + 2 : ℕ) : ℤ) * dr = r + ((j : ℤ) + 2) * dr := by push_cast; ring
        have e6 : c + ((j + 2 : ℕ) : ℤ) * dc = c + ((j : ℤ) + 2) * dc := by push_cast; ring
        rw [hb3def, hb2def, hb1def, e5, e6]
        exact getCell_three_sets hdr ((j : ℤ) + 2) ⟨by omega, by omega, by omega⟩
      constructor
      · rw [epr, epc]
        exact hj.1
      · rw [epr, epc, ethree, hj.2]
        have hpar : (j + 2) % 2 = j % 2 := by omega
        rw [hpar]
    rw [← hb1def] at A1p A1o A1d
    rw [← hb2def] at A2p A2o A2d
    rw [← hb3def] at A3p A3o A3d
    obtain ⟨b', hloop, hWF', hcp, hco, hcd⟩ := ih b3 (r + 2 * dr) (c + 2 * dc) hWF3 h2v hg3 hrun'
    refine ⟨b', hloop, hWF', by omega, by omega, by omega⟩

/-- A move produced by the generator on a non-opening board is accepted by
`nextBoard`, whose result preserves the mover's piece count, removes one
opponent piece per jumped leg (`k = distance / 2` of them) and adds `k`
empty cells. -/
theorem generated_next {n : ℕ} {b : Board} {p : Cell} (hp : p = 'X' ∨ p = 'O')
    (hb : WF n b) (hop : openingMove n b = false) {m : Move}
    (hm : m ∈ generateMoves n b p) :
    ∃ (b' : Board) (k : ℕ), nextBoard n b p m = some b' ∧ 1 ≤ k ∧ WF n b' ∧
      distance (m.getD 0 0) (m.getD 1 0) (m.getD 2 0) (m.getD 3 0) = 2 * (k : ℤ) ∧
      countSymbol n b' p = countSymbol n b p ∧
      countSymbol n b' (opponent p) + k = countSymbol n b (opponent p) ∧
      countSymbol n b' '.' = countSymbol n b '.' + k := by
  obtain ⟨r, c, rd, cd, k, hr, hc, hcell, hdir, hk1, hmv, hrun⟩ :=
    (generateMoves_mem_iff hop m).1 hm
  subst hmv
  have hfacts : (¬(rd = 0 ∧ cd = 0)) ∧ (rd + cd = 1 ∨ rd + cd = -1) := by
    rcases hdir with h | h | h | h <;> rw [Prod.mk.injEq] at h <;>
      obtain ⟨h1, h2⟩ := h <;> subst h1 <;> subst h2 <;> exact ⟨by decide, by decide⟩
  obtain ⟨hdr, hsum⟩ := hfacts
  have hvrc : valid n (r : ℤ) (c : ℤ) = true := valid_iff.2 ⟨by omega, by omega, by omega, by omega⟩
  have hlast := hrun k hk1 (le_refl k)
  have hv2 : valid n ((r : ℤ) + 2 * (k : ℤ) * rd) ((c : ℤ) + 2 * (k : ℤ) * cd) = true :=
    contains_valid hlast.2
  have hg2 : getCell n b ((r : ℤ) + 2 * (k : ℤ) * rd) ((c : ℤ) + 2 * (k : ℤ) * cd) = '.' :=
    contains_getCell hlast.2
  have hdist : distance (r : ℤ) (c : ℤ) ((r : ℤ) + 2 * (k : ℤ) * rd)
      ((c : ℤ) + 2 * (k : ℤ) * cd) = 2 * (k : ℤ) := by
    unfold distance
    have e : (r : ℤ) - ((r : ℤ) + 2 * (k : ℤ) * rd) + ((c : ℤ) - ((c : ℤ) + 2 * (k : ℤ) * cd)) =
        -(2 * (k : ℤ)) * (rd + cd) := by ring
    rw [e]
    rcases hsum with h | h <;> rw [h]
    · rw [mul_one, abs_neg, abs_of_nonneg (by positivity)]
    · rw [mul_neg_one, neg_neg, abs_of_nonneg (by positivity)]
  have h2k0 : (2 * (k : ℤ)) ≠ 0 := by omega
  have hjumps : ((2 * (k : ℤ)).tdiv 2).toNat = k := by
    rw [Int.mul_tdiv_cancel_left _ (by norm_num : (2 : ℤ) ≠ 0)]
    omega
  have hdr' : (((r : ℤ) + 2 * (k : ℤ) * rd - (r : ℤ)).tdiv (2 * (k : ℤ))) = rd := by
    have e : (r : ℤ) + 2 * (k : ℤ) * rd - (r : ℤ) = 2 * (k : ℤ) * rd := by ring
    rw [e, Int.mul_tdiv_cancel_left _ h2k0]
  have hdc' : (((c : ℤ) + 2 * (k : ℤ) * cd - (c : ℤ)).tdiv (2 * (k : ℤ))) = cd := by
    have e : (c : ℤ) + 2 * (k : ℤ) * cd - (c : ℤ) = 2 * (k : ℤ) * cd := by ring
    rw [e, Int.mul_tdiv_cancel_left _ h2k0]
  have hrunJL : ∀ j : ℕ, 1 ≤ j → j ≤ 2 * k →
      valid n ((r : ℤ) + (j : ℤ) * rd) ((c : ℤ) + (j : ℤ) * cd) = true ∧
      getCell n b ((r : ℤ) + (j : ℤ) * rd) ((c : ℤ) + (j : ℤ) * cd) =
        (if j % 2 = 1 then opponent p else '.') := by
    intro j hj1 hj2
    by_cases hpar : j % 2 = 1
    · have ha : 1 ≤ (j + 1) / 2 := by omega
      have hbb : (j + 1) / 2 ≤ k := by omega
      have hx := hrun ((j + 1) / 2) ha hbb
      have er : (r : ℤ) + (2 * (((j + 1) / 2 : ℕ) : ℤ) - 1) * rd = (r : ℤ) + (j : ℤ) * rd := by
        have e : 2 * (((j + 1) / 2 : ℕ) : ℤ) - 1 = (j : ℤ) := by omega
        rw [e]
      have ec : (c : ℤ) + (2 * (((j + 1) / 2 : ℕ) : ℤ) - 1) * cd = (c : ℤ) + (j : ℤ) * cd := by
        have e : 2 * (((j + 1) / 2 : ℕ) : ℤ) - 1 = (j : ℤ) := by omega
        rw [e]
      rw [if_pos hpar]
      have hv := contains_valid hx.1
      have hg := contains_getCell hx.1
      rw [er, ec] at hv hg
      exact ⟨hv, hg⟩
    · have ha : 1 ≤ j / 2 := by omega
      have hbb : j / 2 ≤ k := by omega
      have hx := hrun (j / 2) ha hbb
      have er : (r : ℤ) + 2 * ((j / 2 : ℕ) : ℤ) * rd = (r : ℤ) + (j : ℤ) * rd := by
        have e : 2 * ((j / 2 : ℕ) : ℤ) = (j : ℤ) := by omega
        rw [e]
      have ec : (c : ℤ) + 2 * ((j / 2 : ℕ) : ℤ) * cd = (c : ℤ) + (j : ℤ) * cd := by
        have e : 2 * ((j / 2 : ℕ) : ℤ) = (j : ℤ) := by omega
        rw [e]
      rw [if_neg hpar]
      have hv := contains_valid hx.2
      have hg := contains_getCell hx.2
      rw [er, ec] at hv hg
      exact ⟨hv, hg⟩
  obtain ⟨b', hloop, hWF', hcp, hco, hcd⟩ :=
    jumpLoop_spec hp hdr k b (r : ℤ) (c : ℤ) hb hvrc hcell hrunJL
  refine ⟨b', k, ?_, hk1, hWF', ?_, hcp, hco, hcd⟩
  · unfold nextBoard
    simp only [List.getD_cons_zero, List.getD_cons_succ]
    rw [if_neg (not_not.2 ⟨hvrc, hv2⟩), if_neg (not_not.2 hcell), hdist,
      if_neg (by omega : ¬(2 * (k : ℤ) = 0)), if_neg (not_not.2 hg2), hjumps, hdr', hdc']
    exact hloop
  · simp only [List.getD_cons_zero, List.getD_cons_succ]
    exact hdist

/-! ## Reachable positions -/

theorem WF_jumpLoop {n : ℕ} {p : Cell} {dr dc : ℤ} :
    ∀ (k : ℕ) (b : Board) (r c : ℤ) (b' : Board), WF n b →
    jumpLoop n p k b r c dr dc = some b' → WF n b' := by
  intro k
  induction k with
  | zero =>
    intro b r c b' hb h
    rw [jumpLoop] at h
    cases h
    exact hb
  | succ k ih =>
    intro b r c b' hb h
    rw [jumpLoop] at h
    split at h
    · cases h
    · exact ih _ _ _ _ (WF_setCell (WF_setCell (WF_setCell hb _ _ _) _ _ _) _ _ _) h

theorem WF_nextBoard {n : ℕ} {b : Board} {p : Cell} {m : Move} {b' : Board}
    (hb : WF n b) (h : nextBoard n b p m = some b') : WF n b' := by
  unfold nextBoard at h
  dsimp only at h
  by_cases h1 : ¬(valid n (m.getD 0 0) (m.getD 1 0) = true ∧
      valid n (m.getD 2 0) (m.getD 3 0) = true)
  · rw [if_pos h1] at h
    exact absurd h (by simp)
  · rw [if_neg h1] at h
    by_cases h2 : getCell n b (m.getD 0 0) (m.getD 1 0) ≠ p
    · rw [if_pos h2] at h
      exact absurd h (by simp)
    · rw [if_neg h2] at h
      by_cases h3 : distance (m.getD 0 0) (m.getD 1 0) (m.getD 2 0) (m.getD 3 0) = 0
      · rw [if_pos h3] at h
        by_cases h4 : openingMove n b = true
        · rw [if_pos h4] at h
          cases h
          exact WF_setCell hb _ _ _
        · rw [if_neg h4] at h
          exact absurd h (by simp)
      · rw [if_neg h3] at h
        by_cases h5 : getCell n b (m.getD 2 0) (m.getD 3 0) ≠ '.'
        · rw [if_pos h5] at h
          exact absurd h (by simp)
        · rw [if_neg h5] at h
          exact WF_jumpLoop _ _ _ _ _ hb h

theorem openingMove_initialBoard {n : ℕ} (hn : n % 2 = 0) :
    openingMove n (initialBoard n) = true := by
  unfold openingMove
  rw [countSymbol_initialBoard_empty hn]
  decide

theorem getCell_initialBoard_center {n : ℕ} (hn : n % 2 = 0) (h2 : 2 ≤ n) :
    getCell n (initialBoard n) ((n : ℤ) / 2 - 1) ((n : ℤ) / 2 - 1) = 'X' := by
  have e : (n : ℤ) / 2 - 1 = ((n / 2 - 1 : ℕ) : ℤ) := by omega
  rw [e, getCell_initialBoard hn (by omega) (by omega), if_pos (by omega)]

theorem getCell_initialBoard_center' {n : ℕ} (hn : n % 2 = 0) (h2 : 2 ≤ n) :
    getCell n (initialBoard n) ((n : ℤ) / 2 - 1) ((n : ℤ) / 2) = 'O' := by
  have e1 : (n : ℤ) / 2 - 1 = ((n / 2 - 1 : ℕ) : ℤ) := by omega
  have e2 : (n : ℤ) / 2 = ((n / 2 : ℕ) : ℤ) := by omega
  rw [e1, e2, getCell_initialBoard hn (by omega) (by omega), if_neg (by omega)]

theorem nextBoard_initial_X {n : ℕ} (hn : n % 2 = 0) (h2 : 2 ≤ n) :
    nextBoard n (initialBoard n) 'X' (List.replicate 4 ((n : ℤ) / 2 - 1)) =
      some (boardAfterX n) := by
  have hv : valid n ((n : ℤ) / 2 - 1) ((n : ℤ) / 2 - 1) = true :=
    valid_iff.2 ⟨by omega, by omega, by omega, by omega⟩
  unfold nextBoard
  have hrep : List.replicate 4 ((n : ℤ) / 2 - 1) =
      [(n : ℤ) / 2 - 1, (n : ℤ) / 2 - 1, (n : ℤ) / 2 - 1, (n : ℤ) / 2 - 1] := rfl
  rw [hrep]
  simp only [List.getD_cons_zero, List.getD_cons_succ]
  rw [if_neg (not_not.2 ⟨hv, hv⟩), if_neg (not_not.2 (getCell_initialBoard_center hn h2))]
  have hd : distance ((n : ℤ) / 2 - 1) ((n : ℤ) / 2 - 1) ((n : ℤ) / 2 - 1) ((n : ℤ) / 2 - 1)
      = 0 := by
    unfold distance
    simp
  rw [hd, if_pos rfl, openingMove_initialBoard hn]
  rfl

theorem countSymbol_boardAfterX {n : ℕ} (hn : n % 2 = 0) (h2 : 2 ≤ n) :
    countSymbol n (boardAfterX n) '.' = 1 := by
  have hv : valid n ((n : ℤ) / 2 - 1) ((n : ℤ) / 2 - 1) = true :=
    valid_iff.2 ⟨by omega, by omega, by omega, by omega⟩
  have h := countSymbol_setCell hv (WF_initialBoard n) '.' '.'
  rw [getCell_initialBoard_center hn h2, if_neg (by decide), if_pos rfl,
    countSymbol_initialBoard_empty hn] at h
  unfold boardAfterX
  omega

theorem openingMove_boardAfterX {n : ℕ} (hn : n % 2 = 0) (h2 : 2 ≤ n) :
    openingMove n (boardAfterX n) = true := by
  unfold openingMove
  rw [countSymbol_boardAfterX hn h2]
  decide

theorem getCell_boardAfterX_O {n : ℕ} (hn : n % 2 = 0) (h2 : 2 ≤ n) :
    getCell n (boardAfterX n) ((n : ℤ) / 2 - 1) ((n : ℤ) / 2) = 'O' := by
  unfold boardAfterX
  rw [getCell_setCell_ne (by rintro ⟨_, h⟩; omega)]
  exact getCell_initialBoard_center' hn h2

theorem nextBoard_afterX_O {n : ℕ} (hn : n % 2 = 0) (h2 : 2 ≤ n) :
    nextBoard n (boardAfterX n) 'O'
      [(n : ℤ) / 2 - 1, (n : ℤ) / 2, (n : ℤ) / 2 - 1, (n : ℤ) / 2] =
      some (boardAfterXO n) := by
  have hv : valid n ((n : ℤ) / 2 - 1) ((n : ℤ) / 2) = true :=
    valid_iff.2 ⟨by omega, by omega, by omega, by omega⟩
  unfold nextBoard
  simp only [List.getD_cons_zero, List.getD_cons_succ]
  rw [if_neg (not_not.2 ⟨hv, hv⟩), if_neg (not_not.2 (getCell_boardAfterX_O hn h2))]
  have hd : distance ((n : ℤ) / 2 - 1) ((n : ℤ) / 2) ((n : ℤ) / 2 - 1) ((n : ℤ) / 2) = 0 := by
    unfold distance
    simp
  rw [hd, if_pos rfl, openingMove_boardAfterX hn h2]
  rfl

theorem countSymbol_boardAfterXO {n : ℕ} (hn : n % 2 = 0) (h2 : 2 ≤ n) :
    countSymbol n (boardAfterXO n) '.' = 2 := by
  have hv : valid n ((n : ℤ) / 2 - 1) ((n : ℤ) / 2) = true :=
    valid_iff.2 ⟨by omega, by omega, by omega, by omega⟩
  have hWFx : WF n (boardAfterX n) := WF_setCell (WF_initialBoard n) _ _ _
  have h := countSymbol_setCell (b := boardAfterX n) hv hWFx '.' '.'
  rw [getCell_boardAfterX_O hn h2, if_neg (by decide), if_pos rfl,
    countSymbol_boardAfterX hn h2] at h
  unfold boardAfterXO
  omega

/-- The invariant of reachable positions: the side to move is a real side,
the board is well-formed, and the position is the initial board (X to move),
the board after X's removal (O to move), or past the opening. -/
theorem reachable_inv {n : ℕ} (hn : n % 2 = 0) (h2 : 2 ≤ n) {b : Board} {p : Cell}
    (hr : Reachable n b p) :
    (p = 'X' ∨ p = 'O') ∧ WF n b ∧
      ((b = initialBoard n ∧ p = 'X') ∨ (b = boardAfterX n ∧ p = 'O') ∨
        openingMove n b = false) := by
  induction hr with
  | init => exact ⟨Or.inl rfl, WF_initialBoard n, Or.inl ⟨rfl, rfl⟩⟩
  | @step b p m b' hb hm hnext ih =>
    obtain ⟨hp, hWF, hcase⟩ := ih
    refine ⟨opponent_mem hp, WF_nextBoard hWF hnext, ?_⟩
    rcases hcase with ⟨hbi, hpX⟩ | ⟨hbX, hpO⟩ | hop
    · subst hbi; subst hpX
      have hgen : generateMoves n (initialBoard n) 'X' =
          [List.replicate 4 ((n : ℤ) / 2 - 1)] := by
        unfold generateMoves
        rw [openingMove_initialBoard hn]
        rfl
      rw [hgen, List.mem_singleton] at hm
      subst hm
      rw [nextBoard_initial_X hn h2] at hnext
      cases hnext
      exact Or.inr (Or.inl ⟨rfl, rfl⟩)
    · subst hbX; subst hpO
      have hgen : generateMoves n (boardAfterX n) 'O' =
          [[(n : ℤ) / 2 - 1, (n : ℤ) / 2, (n : ℤ) / 2 - 1, (n : ℤ) / 2]] := by
        unfold generateMoves
        rw [openingMove_boardAfterX hn h2]
        rfl
      rw [hgen, List.mem_singleton] at hm
      subst hm
      rw [nextBoard_afterX_O hn h2] at hnext
      cases hnext
      refine Or.inr (Or.inr ?_)
      have hc := countSymbol_boardAfterXO hn h2
      rw [show openingMove n (boardAfterXO n) =
        decide (countSymbol n (boardAfterXO n) '.' ≤ 1) from rfl]
      simp only [decide_eq_false_iff_not]
      omega
    · obtain ⟨bnext, k, hnb, hk1, _, _, _, _, hcd⟩ := generated_next hp hWF hop hm
      rw [hnb] at hnext
      cases hnext
      refine Or.inr (Or.inr ?_)
      have hge : 2 ≤ countSymbol n b '.' := by
        by_contra hlt
        rw [show openingMove n b = decide (countSymbol n b '.' ≤ 1) from rfl] at hop
        simp only [decide_eq_false_iff_not] at hop
        omega
      rw [show openingMove n b' = decide (countSymbol n b' '.' ≤ 1) from rfl]
      simp only [decide_eq_false_iff_not]
      omega

/-! ## Exact failure condition of the applicator -/

/-- C2 (amended): `nextBoard` raises `GameError` exactly when: an endpoint is
out of bounds; or the source cell does not hold the mover's piece; or the
distance `|Δr + Δc|` is zero and the board is not in its opening state; or
the distance is nonzero and the destination is not empty; or the distance
`d` is nonzero and one of the `⌊d/2⌋` stepped cells at offsets
`(2i+1)·(dr, dc)` — with `dr = trunc(Δr/d)`, `dc = trunc(Δc/d)` — does not
hold the opponent's piece on the original board.  Contrary to the claim as
stated, no positive-even-distance or axis-alignment condition is enforced
anywhere: a move of odd or conflated distance whose stepped cells all hold
the opponent is accepted (see the counterexample). -/
theorem nextBoard_none_iff (n : ℕ) (b : Board) (p : Cell) (mv : Move) :
    nextBoard n b p mv = none ↔
      (¬(valid n (mv.getD 0 0) (mv.getD 1 0) = true ∧
          valid n (mv.getD 2 0) (mv.getD 3 0) = true)) ∨
      getCell n b (mv.getD 0 0) (mv.getD 1 0) ≠ p ∨
      (distance (mv.getD 0 0) (mv.getD 1 0) (mv.getD 2 0) (mv.getD 3 0) = 0 ∧
        openingMove n b = false) ∨
      (distance (mv.getD 0 0) (mv.getD 1 0) (mv.getD 2 0) (mv.getD 3 0) ≠ 0 ∧
        getCell n b (mv.getD 2 0) (mv.getD 3 0) ≠ '.') ∨
      (distance (mv.getD 0 0) (mv.getD 1 0) (mv.getD 2 0) (mv.getD 3 0) ≠ 0 ∧
        ∃ i : ℕ,
          i < ((distance (mv.getD 0 0) (mv.getD 1 0) (mv.getD 2 0) (mv.getD 3 0)).tdiv 2).toNat ∧
          getCell n b
            (mv.getD 0 0 + (2 * (i : ℤ) + 1) *
              ((mv.getD 2 0 - mv.getD 0 0).tdiv
                (distance (mv.getD 0 0) (mv.getD 1 0) (mv.getD 2 0) (mv.getD 3 0))))
            (mv.getD 1 0 + (2 * (i : ℤ) + 1) *
              ((mv.getD 3 0 - mv.getD 1 0).tdiv
                (distance (mv.getD 0 0) (mv.getD 1 0) (mv.getD 2 0) (mv.getD 3 0))))
            ≠ opponent p) := by
  unfold nextBoard
  dsimp only
  by_cases h1 : ¬(valid n (mv.getD 0 0) (mv.getD 1 0) = true ∧
      valid n (mv.getD 2 0) (mv.getD 3 0) = true)
  · rw [if_pos h1]
    exact ⟨fun _ => Or.inl h1, fun _ => rfl⟩
  · rw [if_neg h1]
    by_cases h2 : getCell n b (mv.getD 0 0) (mv.getD 1 0) ≠ p
    · rw [if_pos h2]
      exact ⟨fun _ => Or.inr (Or.inl h2), fun _ => rfl⟩
    · rw [if_neg h2]
      rw [not_not] at h2
      by_cases h3 : distance (mv.getD 0 0) (mv.getD 1 0) (mv.getD 2 0) (mv.getD 3 0) = 0
      · rw [if_pos h3]
        by_cases h4 : openingMove n b = true
        · rw [if_pos h4]
          constructor
          · intro h
            exact absurd h (by simp)
          · rintro (h | h | ⟨_, hopf⟩ | ⟨hd, _⟩ | ⟨hd, _⟩)
            · exact absurd h h1
            · exact absurd h2 h
            · exact absurd hopf (by rw [h4]; simp)
            · exact absurd h3 hd
            · exact absurd h3 hd
        · rw [if_neg h4]
          simp only [Bool.not_eq_true] at h4
          exact ⟨fun _ => Or.inr (Or.inr (Or.inl ⟨h3, h4⟩)), fun _ => rfl⟩
      · rw [if_neg h3]
        by_cases h5 : getCell n b (mv.getD 2 0) (mv.getD 3 0) ≠ '.'
        · rw [if_pos h5]
          exact ⟨fun _ => Or.inr (Or.inr (Or.inr (Or.inl ⟨h3, h5⟩))), fun _ => rfl⟩
        · rw [if_neg h5]
          rw [not_not] at h5
          by_cases h6 : ((mv.getD 2 0 - mv.getD 0 0).tdiv
                (distance (mv.getD 0 0) (mv.getD 1 0) (mv.getD 2 0) (mv.getD 3 0)) = 0 ∧
              (mv.getD 3 0 - mv.getD 1 0).tdiv
                (distance (mv.getD 0 0) (mv.getD 1 0) (mv.getD 2 0) (mv.getD 3 0)) = 0)
          · obtain ⟨h6r, h6c⟩ := h6
            rw [h6r, h6c]
            have hnp : ¬(p = opponent p) := fun h => opponent_ne p h.symm
            cases hj : ((distance (mv.getD 0 0) (mv.getD 1 0) (mv.getD 2 0)
                (mv.getD 3 0)).tdiv 2).toNat with
            | zero =>
              rw [jumpLoop]
              constructor
              · intro h
                exact absurd h (by simp)
              · rintro (h | h | ⟨h, _⟩ | ⟨_, h⟩ | ⟨_, i, hi, _⟩)
                · exact absurd h h1
                · exact absurd h2 h
                · exact absurd h h3
                · exact absurd h5 h
                · omega
            | succ k =>
              rw [jumpLoop, if_pos (by simp only [add_zero]; rw [h2]; exact hnp)]
              constructor
              · intro _
                refine Or.inr (Or.inr (Or.inr (Or.inr ⟨h3, 0, by omega, ?_⟩)))
                simp only [mul_zero, add_zero]
                rw [h2]
                exact hnp
              · intro _
                rfl
          · rw [jumpLoop_none_iff h6]
            constructor
            · rintro ⟨i, hi, hne⟩
              exact Or.inr (Or.inr (Or.inr (Or.inr ⟨h3, i, hi, hne⟩)))
            · rintro (h | h | ⟨h, _⟩ | ⟨_, h⟩ | ⟨_, i, hi, hne⟩)
              · exact absurd h h1
              · exact absurd h2 h
              · exact absurd h h3
              · exact absurd h5 h
              · exact ⟨i, hi, hne⟩

/-! ## Cutoff behaviour of the searches -/

theorem minimaxAux_cutoff {n limit : ℕ} {s : Cell} (fuel : ℕ) (b : Board) (depth : ℕ)
    (player : Cell) (h : depth = limit ∨ (generateMoves n b player).length = 0) :
    minimaxAux n limit s fuel b depth player = some (evaluation n s b, .noMove) := by
  cases fuel <;> rw [minimaxAux] <;> rw [if_pos h]

theorem abAux_cutoff {n limit : ℕ} {s : Cell} (fuel : ℕ) (b : Board) (depth : ℕ)
    (player : Cell) (alpha beta : Score)
    (h : depth = limit ∨ (generateMoves n b player).length = 0) :
    abAux n limit s fuel b depth player alpha beta = some (evaluation n s b, .noMove) := by
  cases fuel <;> rw [abAux] <;> rw [if_pos h]

/-! ## The claims -/

/-- C1: the alpha-beta search does NOT return the same value and move as the
plain minimax search.  On `boardC1` with depth limit 2, at the root call
exactly as `getMove` makes it (depth 0, the opponent of the searcher 'X' to
move, window `(-inf, +inf)`), plain minimax backs up `-inf` and keeps the
initial best-move `0`, while the alpha-beta variant — whose MIN branch
raises `beta` on `backedup_val > beta` instead of lowering it — backs up
`+inf` and selects the first move.  The two searches disagree on both the
value and the move. -/
theorem alphaBeta_disagrees_with_minimax :
    minimax 4 2 'X' boardC1 0 'O' = some (Score.negInf, MMove.zero) ∧
    minimaxAlphaBeta 4 2 'X' boardC1 0 'O' Score.negInf Score.posInf =
      some (Score.posInf, MMove.chosen [0, 0, 0, 2]) ∧
    minimax 4 2 'X' boardC1 0 'O' ≠
      minimaxAlphaBeta 4 2 'X' boardC1 0 'O' Score.negInf Score.posInf :=
  ⟨by decide, by decide, by decide⟩

/-- C2 (counterexample): on the non-opening `boardC2`, the move `[0,0,0,1]`
has distance 1 — not a positive even multiple of a grid step — yet
`nextBoard` accepts it (returning the board unchanged: zero jumps are
executed) instead of raising `GameError` as the claim requires. -/
theorem nextBoard_accepts_odd_distance :
    openingMove 4 boardC2 = false ∧
    distance 0 0 0 1 = 1 ∧
    nextBoard 4 boardC2 'X' [0, 0, 0, 1] = some boardC2 :=
  ⟨by decide, by decide, by decide⟩

/-- C3: on every board reachable in play (even board size ≥ 2), every move
returned by the generator is accepted by the applicator — `nextBoard` never
raises `GameError` on generator output. -/
theorem reachable_generated_accepted {n : ℕ} (hn : n % 2 = 0) (h2 : 2 ≤ n) {b : Board}
    {p : Cell} {m : Move} (hr : Reachable n b p) (hm : m ∈ generateMoves n b p) :
    ∃ b', nextBoard n b p m = some b' := by
  obtain ⟨hp, hWF, hcase⟩ := reachable_inv hn h2 hr
  rcases hcase with ⟨hbi, hpX⟩ | ⟨hbX, hpO⟩ | hop
  · subst hbi; subst hpX
    have hgen : generateMoves n (initialBoard n) 'X' =
        [List.replicate 4 ((n : ℤ) / 2 - 1)] := by
      unfold generateMoves
      rw [openingMove_initialBoard hn]
      rfl
    rw [hgen, List.mem_singleton] at hm
    subst hm
    exact ⟨boardAfterX n, nextBoard_initial_X hn h2⟩
  · subst hbX; subst hpO
    have hgen : generateMoves n (boardAfterX n) 'O' =
        [[(n : ℤ) / 2 - 1, (n : ℤ) / 2, (n : ℤ) / 2 - 1, (n : ℤ) / 2]] := by
      unfold generateMoves
      rw [openingMove_boardAfterX hn h2]
      rfl
    rw [hgen, List.mem_singleton] at hm
    subst hm
    exact ⟨boardAfterXO n, nextBoard_afterX_O hn h2⟩
  · obtain ⟨b', k, hnb, _⟩ := generated_next hp hWF hop hm
    exact ⟨b', hnb⟩

/-- Witness for C3 at the concrete size 2: the initial board is reachable,
its only generated move is the removal `[0,0,0,0]`, and it is accepted. -/
theorem reachable_generated_accepted_witness :
    2 % 2 = 0 ∧ 2 ≤ 2 ∧ [0, 0, 0, 0] ∈ generateMoves 2 (initialBoard 2) 'X' ∧
    ∃ b', nextBoard 2 (initialBoard 2) 'X' [0, 0, 0, 0] = some b' :=
  ⟨by decide, by decide, by decide,
    reachable_generated_accepted (by decide) (by decide) Reachable.init (by decide)⟩

/-- C4: on a non-opening board, the generator returns exactly the jump moves
described by the claim — one independent move per cell of `p`, axis
direction and chain length `k ≥ 1` whose stepping stones alternate opponent
(at distance `2j-1`) and empty (at distance `2j`) — and its result is the
empty sequence exactly when no such legal move exists. -/
theorem generateMoves_exactly_legal_jumps {n : ℕ} {b : Board} {p : Cell}
    (hop : openingMove n b = false) :
    (∀ m : Move, m ∈ generateMoves n b p ↔ specJumpMove n b p m) ∧
    (generateMoves n b p = [] ↔ ∀ m : Move, ¬specJumpMove n b p m) := by
  have h1 : ∀ m : Move, m ∈ generateMoves n b p ↔ specJumpMove n b p m := fun m =>
    generateMoves_mem_iff hop m
  refine ⟨h1, ?_⟩
  rw [List.eq_nil_iff_forall_not_mem]
  exact forall_congr' fun m => not_congr (h1 m)

/-- Witness for C4 on the concrete non-opening board `boardC4`. -/
theorem generateMoves_exactly_legal_jumps_witness :
    openingMove 4 boardC4 = false ∧
    ((∀ m : Move, m ∈ generateMoves 4 boardC4 'X' ↔ specJumpMove 4 boardC4 'X' m) ∧
      (generateMoves 4 boardC4 'X' = [] ↔ ∀ m : Move, ¬specJumpMove 4 boardC4 'X' m)) :=
  ⟨by decide, generateMoves_exactly_legal_jumps (by decide)⟩

/-- C5: the side to move at depth 0 of the search is the OPPONENT of the
searcher, not the searcher: `getMove` starts the recursion with
`opponent(current_player)` at the MAX node of depth 0, and MAX nodes recurse
with `opponent(current_player)` again, so depths 0 and 1 both generate the
opponent's moves — the sides do not alternate between depths 0 and 1
(`minimaxSideAt` is read off the three call sites of the source).
Concretely, on `boardC5` — where the searcher 'X' has a move but 'O' does
not — the depth-0 call made by `getMove` with limit 2 is already a cutoff
node, because the moves generated at depth 0 are the opponent's. -/
theorem minimax_opponent_moves_at_depth_zero :
    minimaxSideAt 'X' 0 = 'O' ∧ minimaxSideAt 'X' 1 = 'O' ∧ minimaxSideAt 'X' 2 = 'X' ∧
    minimaxSideAt 'X' 3 = 'O' ∧
    generateMoves 4 boardC5 'X' ≠ [] ∧ generateMoves 4 boardC5 'O' = [] ∧
    minimax 4 2 'X' boardC5 0 'O' = some (evaluation 4 'X' boardC5, MMove.noMove) :=
  ⟨by decide, by decide, by decide, by decide, by decide, by decide, by decide⟩

/-- C6: the `minimax` of `linh3.py`/`linh2.py` does NOT cut off when the
side to move has no legal moves: its test `isTerminal(n)` receives the BOARD
(a nonempty list) instead of the move list.  On `boardC6`, where 'O' to move
has no moves at depth 0 < limit 2, it enters the MAX branch over an empty
move list and returns `(-inf, 0)` instead of `(evaluation, None)` — the
evaluation here being `+inf`.  The `konane.py` variant (which tests
`len(moves) == 0`) returns the cutoff pair as the claim states. -/
theorem linh3_minimax_misses_no_move_cutoff :
    generateMoves 4 boardC6 'O' = [] ∧
    linh3MinimaxAux 4 2 'X' 2 boardC6 0 'O' = some (Score.negInf, MMove.zero) ∧
    minimaxAux 4 2 'X' 2 boardC6 0 'O' = some (evaluation 4 'X' boardC6, MMove.noMove) ∧
    evaluation 4 'X' boardC6 = Score.posInf :=
  ⟨by decide, by decide, by decide, by decide⟩

/-- C7: on every opening-state board of even size, the generator returns
exactly one move per side: for 'X' the single-cell removal
`[size/2-1, size/2-1, size/2-1, size/2-1]` and for 'O' the removal
`[size/2-1, size/2, size/2-1, size/2]` (fromRow = toRow, fromCol = toCol);
on the 8 × 8 board these are `[3,3,3,3]` and `[3,4,3,4]`. -/
theorem generateMoves_opening_fixed_removals {n : ℕ} (_hn : n % 2 = 0) {b : Board}
    (hop : openingMove n b = true) :
    generateMoves n b 'X' = [List.replicate 4 ((n : ℤ) / 2 - 1)] ∧
    generateMoves n b 'O' =
      [[(n : ℤ) / 2 - 1, (n : ℤ) / 2, (n : ℤ) / 2 - 1, (n : ℤ) / 2]] ∧
    List.replicate 4 ((n : ℤ) / 2 - 1) =
      [(n : ℤ) / 2 - 1, (n : ℤ) / 2 - 1, (n : ℤ) / 2 - 1, (n : ℤ) / 2 - 1] ∧
    generateMoves 8 (initialBoard 8) 'X' = [[3, 3, 3, 3]] ∧
    generateMoves 8 (boardAfterX 8) 'O' = [[3, 4, 3, 4]] := by
  refine ⟨?_, ?_, rfl, by decide, by decide⟩
  · unfold generateMoves
    rw [hop]
    rfl
  · unfold generateMoves
    rw [hop]
    rfl

/-- Witness for C7 on the initial 8 × 8 board. -/
theorem generateMoves_opening_fixed_removals_witness :
    8 % 2 = 0 ∧ openingMove 8 (initialBoard 8) = true ∧
    generateMoves 8 (initialBoard 8) 'X' = [List.replicate 4 ((8 : ℤ) / 2 - 1)] :=
  ⟨by decide, by decide, (generateMoves_opening_fixed_removals (by decide) (by decide)).1⟩

/-- C8 (counterexample): the even-distance axis move `[0,0,0,4]` on the
non-opening `boardC8` is accepted by `nextBoard` although the unchecked
intermediate cell (0,2) holds the mover's own piece; the landing overwrites
it and the mover's piece count DROPS from 2 to 1, violating the claimed
conservation for successful nonzero-distance applications. -/
theorem nextBoard_overwrites_intermediate :
    openingMove 5 boardC8 = false ∧
    countSymbol 5 boardC8 'X' = 2 ∧
    distance 0 0 0 4 = 4 ∧
    (nextBoard 5 boardC8 'X' [0, 0, 0, 4]).map (fun b => countSymbol 5 b 'X') = some 1 :=
  ⟨by decide, by decide, by decide, by decide⟩

/-- C8 (amended): for every successful application of a move PRODUCED BY THE
GENERATOR on a well-formed non-opening board, the mover's piece count is
unchanged and the opponent loses exactly one piece per jumped leg
(`distance/2` of them), so the total non-empty count strictly decreases by
the number of captures. -/
theorem generated_move_conservation {n : ℕ} {b : Board} {p : Cell}
    (hp : p = 'X' ∨ p = 'O') (hb : WF n b) (hop : openingMove n b = false) {m : Move}
    (hm : m ∈ generateMoves n b p) :
    ∃ b', nextBoard n b p m = some b' ∧
      1 ≤ ((distance (m.getD 0 0) (m.getD 1 0) (m.getD 2 0) (m.getD 3 0)).tdiv 2).toNat ∧
      countSymbol n b' p = countSymbol n b p ∧
      countSymbol n b' (opponent p) +
        ((distance (m.getD 0 0) (m.getD 1 0) (m.getD 2 0) (m.getD 3 0)).tdiv 2).toNat =
        countSymbol n b (opponent p) ∧
      countSymbol n b' '.' = countSymbol n b '.' +
        ((distance (m.getD 0 0) (m.getD 1 0) (m.getD 2 0) (m.getD 3 0)).tdiv 2).toNat := by
  obtain ⟨b', k, hnb, hk1, _, hdist, hcp, hco, hcd⟩ := generated_next hp hb hop hm
  have hk : ((distance (m.getD 0 0) (m.getD 1 0) (m.getD 2 0) (m.getD 3 0)).tdiv 2).toNat
      = k := by
    rw [hdist, Int.mul_tdiv_cancel_left _ (by norm_num : (2 : ℤ) ≠ 0)]
    omega
  rw [hk]
  exact ⟨b', hnb, hk1, hcp, hco, hcd⟩

/-- Witness for C8 (amended) on `boardC8w` with the generated jump
`[0,0,0,2]` of distance 2 (one captured piece). -/
theorem generated_move_conservation_witness :
    ('X' = 'X' ∨ 'X' = 'O') ∧ WF 4 boardC8w ∧ openingMove 4 boardC8w = false ∧
    [0, 0, 0, 2] ∈ generateMoves 4 boardC8w 'X' ∧
    ∃ b', nextBoard 4 boardC8w 'X' [0, 0, 0, 2] = some b' ∧ 1 ≤ 1 ∧
      countSymbol 4 b' 'X' = countSymbol 4 boardC8w 'X' ∧
      countSymbol 4 b' (opponent 'X') + 1 = countSymbol 4 boardC8w (opponent 'X') ∧
      countSymbol 4 b' '.' = countSymbol 4 boardC8w '.' + 1 :=
  ⟨Or.inl rfl, ⟨rfl, by decide⟩, by decide, by decide,
    generated_move_conservation (n := 4) (b := boardC8w) (m := [0, 0, 0, 2])
      (Or.inl rfl) ⟨rfl, by decide⟩ (by decide) (by decide)⟩

/-- C10: at every cutoff node of both searches — whatever the depth, the
side to move `p`, and the alpha-beta window — the returned score is the
mobility difference computed from the FIXED searcher `s`'s perspective:
`+inf` when the searcher's opponent has no legal moves (tested first),
`-inf` when the searcher has none, else the difference of move counts; the
side-to-move argument does not appear in the value. -/
theorem cutoff_eval_fixed_perspective {n limit : ℕ} {s : Cell} (fuel : ℕ) (b : Board)
    (depth : ℕ) (p : Cell) (alpha beta : Score)
    (h : depth = limit ∨ (generateMoves n b p).length = 0) :
    minimaxAux n limit s fuel b depth p = some
      (if (generateMoves n b (opponent s)).length = 0 then Score.posInf
        else if (generateMoves n b s).length = 0 then Score.negInf
        else Score.fin (((generateMoves n b s).length : ℤ) -
          ((generateMoves n b (opponent s)).length : ℤ)), MMove.noMove) ∧
    abAux n limit s fuel b depth p alpha beta = some
      (if (generateMoves n b (opponent s)).length = 0 then Score.posInf
        else if (generateMoves n b s).length = 0 then Score.negInf
        else Score.fin (((generateMoves n b s).length : ℤ) -
          ((generateMoves n b (opponent s)).length : ℤ)), MMove.noMove) := by
  have he : evaluation n s b =
      (if (generateMoves n b (opponent s)).length = 0 then Score.posInf
        else if (generateMoves n b s).length = 0 then Score.negInf
        else Score.fin (((generateMoves n b s).length : ℤ) -
          ((generateMoves n b (opponent s)).length : ℤ))) := rfl
  constructor
  · rw [minimaxAux_cutoff fuel b depth p h, he]
  · rw [abAux_cutoff fuel b depth p alpha beta h, he]

/-- Witness for C10 at a depth-limit cutoff on `boardC10` (searcher 'X',
opponent 'O' to move, window `(-inf, +inf)`). -/
theorem cutoff_eval_fixed_perspective_witness :
    ((0 : ℕ) = 0 ∨ (generateMoves 4 boardC10 'O').length = 0) ∧
    minimaxAux 4 0 'X' 5 boardC10 0 'O' = some (Score.posInf, MMove.noMove) :=
  ⟨Or.inl rfl, by
    have h := (@cutoff_eval_fixed_perspective 4 0 'X' 5 boardC10 0
      'O' Score.negInf Score.posInf (Or.inl rfl)).1
    rw [h]
    decide⟩

end Konane
